import Mathlib

set_option maxHeartbeats 1600000

namespace WordCounter

/-! Shallow embedding of `src/backend/app.py` (the Analyzer core: the two
tokenizers, the counter, the term matcher and `build_result`).  Strings are
modelled as `List Char`; the callers' I/O layer is out of scope. -/

/-- Characters treated as whitespace by Python: the set matched by `str.strip`,
`str.isspace` and the regex class `\s` over `str` patterns (ASCII whitespace,
the C1 separator controls, NEL, NBSP and the Unicode space separators). -/
def pyIsSpace (c : Char) : Bool :=
  c.toNat == 32 || (decide (9 ≤ c.toNat) && decide (c.toNat ≤ 13)) ||
  (decide (28 ≤ c.toNat) && decide (c.toNat ≤ 31)) ||
  c.toNat == 133 || c.toNat == 160 || c.toNat == 5760 ||
  (decide (8192 ≤ c.toNat) && decide (c.toNat ≤ 8202)) ||
  c.toNat == 8232 || c.toNat == 8233 || c.toNat == 8239 || c.toNat == 8287 ||
  c.toNat == 12288

/-- The token alphabet of `app.py`: the regex character class `[0-9A-Za-z가-힣]`
(ASCII digits, ASCII letters, Hangul syllables). -/
def isWordChar (c : Char) : Bool :=
  (decide (48 ≤ c.toNat) && decide (c.toNat ≤ 57)) ||
  (decide (65 ≤ c.toNat) && decide (c.toNat ≤ 90)) ||
  (decide (97 ≤ c.toNat) && decide (c.toNat ≤ 122)) ||
  (decide (44032 ≤ c.toNat) && decide (c.toNat ≤ 55203))

/-- Python's `str.lower`, modelled on the program's supported alphabets: ASCII
uppercase letters map to the corresponding lowercase letters; digits, lowercase
letters and Hangul syllables (which have no case), as well as every other
character, are left unchanged. -/
def pyLowerChar (c : Char) : Char :=
  if h : 65 ≤ c.toNat ∧ c.toNat ≤ 90 then
    Char.ofNatAux (c.toNat + 32) (Or.inl (by omega))
  else c

/-- `text.lower()` character by character. -/
def pyLower (s : List Char) : List Char := s.map pyLowerChar

/-- Python's `str.strip`: remove leading and trailing whitespace. -/
def pyStrip (s : List Char) : List Char :=
  ((s.dropWhile pyIsSpace).reverse.dropWhile pyIsSpace).reverse

/-- Convenience: the character list of a string literal. -/
def strL (s : String) : List Char := s.data

/-- Scanner for the plain-word grammar `[0-9A-Za-z가-힣]+` of `count_top_words`:
`acc` holds (reversed) the alphabet run currently being read. -/
def plainTokensAux : List Char → List Char → List (List Char)
  | [], acc => if acc.isEmpty then [] else [acc.reverse]
  | c :: cs, acc =>
    if isWordChar c then plainTokensAux cs (c :: acc)
    else if acc.isEmpty then plainTokensAux cs []
    else acc.reverse :: plainTokensAux cs []

/-- `re.findall(r"[0-9A-Za-z가-힣]+", s)`: the maximal runs of alphabet
characters, in order of appearance. -/
def plainTokens (s : List Char) : List (List Char) := plainTokensAux s []

/-- A character the compound-token grammar can absorb between two alphabet
blocks: not whitespace and not in the alphabet (`[^\s0-9A-Za-z가-힣]`). -/
def isJoinChar (c : Char) : Bool := !pyIsSpace c && !isWordChar c

/-- Scanner for the compound-token grammar
`[0-9A-Za-z가-힣]+(?:[^\s0-9A-Za-z가-힣]+[0-9A-Za-z가-힣]+)*` used by
`count_terms_in_text`.  `acc` is the token read so far (reversed; when nonempty
it ends in an alphabet block) and `pend` is a pending run of join characters
(reversed) not yet known to be followed by an alphabet block; a pending run is
absorbed only when an alphabet character follows it, and discarded at
whitespace or end of input, exactly as the greedy regex matches. -/
def compTokAux : List Char → List Char → List Char → List (List Char)
  | [], acc, _ => if acc.isEmpty then [] else [acc.reverse]
  | c :: cs, acc, pend =>
    if isWordChar c then compTokAux cs (c :: (pend ++ acc)) []
    else if pyIsSpace c then
      if acc.isEmpty then compTokAux cs [] []
      else acc.reverse :: compTokAux cs [] []
    else
      if acc.isEmpty then compTokAux cs [] []
      else compTokAux cs acc (c :: pend)

/-- `re.findall(token_pattern, lower_text)` for the compound-token grammar. -/
def compoundTokens (s : List Char) : List (List Char) := compTokAux s [] []

/-- Literal match: `pat` is character-for-character an initial segment of `s`
(the semantics of the `re.escape`d phrase literal). -/
def litMatch : List Char → List Char → Bool
  | [], _ => true
  | _ :: _, [] => false
  | p :: ps, c :: cs => p == c && litMatch ps cs

/-- The regex lookahead `(?!\S)`: the position is end-of-text or holds a
whitespace character. -/
def afterOk : List Char → Bool
  | [] => true
  | d :: _ => pyIsSpace d

/-- Scanner for `len(re.findall(rf"(?<!\S){re.escape(term)}(?!\S)",
lower_text))`: `bnd` records whether the current position is start-of-text or
preceded by whitespace (the lookbehind `(?<!\S)`), and `skip` counts the
positions still inside a previously counted match, which `re.findall` never
revisits (matches are non-overlapping, found left to right). -/
def phraseScanS (term : List Char) : List Char → Bool → Nat → Nat
  | [], _, _ => 0
  | c :: cs, bnd, 0 =>
    if bnd && litMatch term (c :: cs) && afterOk (List.drop term.length (c :: cs)) then
      1 + phraseScanS term cs (pyIsSpace c) (term.length - 1)
    else phraseScanS term cs (pyIsSpace c) 0
  | c :: cs, _, skip + 1 => phraseScanS term cs (pyIsSpace c) skip

/-- The number of standalone occurrences of the phrase `term` in `text`. -/
def phraseCount (term text : List Char) : Nat := phraseScanS term text true 0

/-- Python `dict` as an association list in insertion order: assignment to an
existing key updates it in place, a new key is appended at the end. -/
def dictInsert (m : List (List Char × Nat)) (k : List Char) (v : Nat) :
    List (List Char × Nat) :=
  if m.any (fun p => p.1 == k) then
    m.map (fun p => if p.1 == k then (k, v) else p)
  else m ++ [(k, v)]

/-- Python `d[k]` on a dict association list (`0` when the key is absent; the
program only looks up keys that are present). -/
def dictGet (m : List (List Char × Nat)) (k : List Char) : Nat :=
  match m.find? (fun p => p.1 == k) with
  | some p => p.2
  | none => 0

/-- The distinct elements of a list in order of first occurrence: the key order
of a Python `collections.Counter` built from the list. -/
def distinctKeys : List (List Char) → List (List Char)
  | [] => []
  | a :: as => a :: (distinctKeys as).filter (fun b => !(b == a))

/-- Python's `max` over a list of counts (the program only applies it to
nonempty lists). -/
def listMax : List Nat → Nat
  | [] => 0
  | x :: xs => max x (listMax xs)

/-- The trimmed, lower-cased form of a search term:
`(original or "").strip().lower()`. -/
def normTerm (original : List Char) : List Char := pyLower (pyStrip original)

/-- The `for original in terms` loop of `count_terms_in_text`: skip blank
terms, count phrase terms (containing a space) with the standalone-phrase
regex, count word terms by lookup in the compound-token counter, and store the
result under the original term string. -/
def ctit_go (lower_text : List Char) (tokens : List (List Char)) :
    List (List Char) → List (List Char × Nat) → List (List Char × Nat)
  | [], out => out
  | original :: rest, out =>
    if (normTerm original).isEmpty then ctit_go lower_text tokens rest out
    else if ' ' ∈ normTerm original then
      ctit_go lower_text tokens rest
        (dictInsert out original (phraseCount (normTerm original) lower_text))
    else
      ctit_go lower_text tokens rest
        (dictInsert out original (tokens.count (normTerm original)))

/-- `count_terms_in_text(text, terms)` from `app.py`. -/
def count_terms_in_text (text : List Char) (terms : List (List Char)) :
    List (List Char × Nat) :=
  ctit_go (pyLower text) (compoundTokens (pyLower text)) terms []

/-- `count_top_words(text)` from `app.py`: tally the plain-grammar tokens of
the lower-cased text and keep the entries whose count is maximal. -/
def count_top_words (text : List Char) : List (List Char × Nat) :=
  let tokens := plainTokens (pyLower text)
  if tokens.isEmpty then []
  else
    let c := (distinctKeys tokens).map (fun w => (w, tokens.count w))
    let max_cnt := listMax (c.map Prod.snd)
    c.filter (fun p => p.2 == max_cnt)

/-- Python string comparison: lexicographic by code point. -/
def lexLt : List Char → List Char → Bool
  | [], [] => false
  | [], _ :: _ => true
  | _ :: _, [] => false
  | a :: as, b :: bs =>
    if a.toNat < b.toNat then true
    else if b.toNat < a.toNat then false
    else lexLt as bs

/-- Insertion step of the sort used to model Python's `sorted`. -/
def insertSorted (x : List Char) : List (List Char) → List (List Char)
  | [] => [x]
  | y :: ys => if lexLt x y then x :: y :: ys else y :: insertSorted x ys

/-- Python's `sorted` over a list of keys (ascending code-point order). -/
def sortKeys : List (List Char) → List (List Char)
  | [] => []
  | x :: xs => insertSorted x (sortKeys xs)

/-- The fixed error message `"문자가 없습니다"` ("there are no characters"). -/
def errMsg : List Char := strL "문자가 없습니다"

/-- The value returned by `build_result`: either the error dict
`{"error": msg}` or a count mapping in insertion order. -/
inductive Result where
  | error (msg : List Char)
  | counts (m : List (List Char × Nat))
deriving DecidableEq

/-- The branch guard `terms and any(t.strip() for t in terms)`. -/
def hasRealTerm (terms : List (List Char)) : Bool :=
  !terms.isEmpty && terms.any (fun t => !(pyStrip t).isEmpty)

/-- `build_result(text, terms)` from `app.py`. -/
def build_result (text : List Char) (terms : List (List Char)) : Result :=
  if (pyStrip text).isEmpty then Result.error errMsg
  else if hasRealTerm terms then
    let counts := count_terms_in_text text terms
    if counts.isEmpty then Result.error errMsg
    else
      let max_cnt := listMax (counts.map Prod.snd)
      let tied_keys := sortKeys ((counts.filter (fun p => p.2 == max_cnt)).map Prod.fst)
      Result.counts (tied_keys.map (fun k => (k, dictGet counts k)))
  else
    let top := count_top_words text
    if top.isEmpty then Result.error errMsg
    else
      let ordered := sortKeys (top.map Prod.fst)
      Result.counts (ordered.map (fun k => (k, dictGet top k)))

/-- Modelled from the spec (§4.3 step 2): an occurrence of the phrase at
position `i` of the text is a literal match "preceded by either start-of-text
or a whitespace character, and followed by either end-of-text or a whitespace
character". -/
def specOccursAt (term text : List Char) (i : Nat) : Bool :=
  litMatch term (text.drop i) &&
  (i == 0 || (text[i-1]?).all pyIsSpace) &&
  (text[i + term.length]?).all pyIsSpace

/-- Modelled from the spec: count the non-overlapping occurrences among an
ascending list of candidate positions, scanning left to right and skipping
every position that overlaps the previously counted occurrence. -/
def greedyFrom (len : Nat) : Nat → List Nat → Nat
  | _, [] => 0
  | lo, j :: rest =>
    if lo ≤ j then 1 + greedyFrom len (j + len) rest else greedyFrom len lo rest

/-- Modelled from the spec (§4.3 step 2): "count all non-overlapping
occurrences of the exact literal sequence in the lower-cased text" whose
boundaries are start/end of text or whitespace. -/
def specPhraseCount (term text : List Char) : Nat :=
  greedyFrom term.length 0
    ((List.range text.length).filter (fun i => specOccursAt term text i))

/-- Index-based reading of the phrase scanner, used to relate `phraseCount`
to `specPhraseCount`. -/
def idxScan (term text : List Char) (i : Nat) : Nat :=
  if i < text.length then
    if specOccursAt term text i then 1 + idxScan term text (i + Nat.max 1 term.length)
    else idxScan term text (i + 1)
  else 0
termination_by text.length - i
decreasing_by
  · have h1 : 1 ≤ Nat.max 1 term.length := Nat.le_max_left 1 term.length
    omega
  · omega

/-! Helper lemmas about the embedded operations. -/

theorem listMax_mem (l : List Nat) (h : l ≠ []) : listMax l ∈ l := by
  induction l with
  | nil => cases h rfl
  | cons x xs ih =>
    rcases max_choice x (listMax xs) with hm | hm
    · simp only [listMax, hm]
      exact List.mem_cons_self x xs
    · by_cases hxs : xs = []
      · subst hxs
        simp [listMax]
      · simp only [listMax, hm]
        exact List.mem_cons_of_mem x (ih hxs)

theorem listMax_ge (l : List Nat) {x : Nat} (h : x ∈ l) : x ≤ listMax l := by
  induction l with
  | nil => cases h
  | cons y ys ih =>
    simp only [listMax]
    rcases List.mem_cons.mp h with rfl | h2
    · exact le_max_left _ _
    · exact le_trans (ih h2) (le_max_right _ _)

theorem listMax_le (l : List Nat) (c : Nat) (h : ∀ x ∈ l, x ≤ c) : listMax l ≤ c := by
  induction l with
  | nil => simp [listMax]
  | cons x xs ih =>
    simp only [listMax]
    exact max_le_iff.mpr ⟨h x (by simp), ih (fun y hy => h y (List.mem_cons_of_mem _ hy))⟩

theorem listMax_const (l : List Nat) (c : Nat) (hne : l ≠ []) (h : ∀ x ∈ l, x = c) :
    listMax l = c := h _ (listMax_mem l hne)

theorem listMax_congr_mem (l1 l2 : List Nat) (h : ∀ x, x ∈ l1 ↔ x ∈ l2) :
    listMax l1 = listMax l2 := by
  apply Nat.le_antisymm
  · exact listMax_le _ _ (fun x hx => listMax_ge _ ((h x).mp hx))
  · exact listMax_le _ _ (fun x hx => listMax_ge _ ((h x).mpr hx))

theorem nodupKeys_eq (m : List (List Char × Nat)) (h : (m.map Prod.fst).Nodup)
    {p q : List Char × Nat} (hp : p ∈ m) (hq : q ∈ m) (hk : p.1 = q.1) : p = q := by
  induction m with
  | nil => cases hp
  | cons a as ih =>
    rw [List.map_cons, List.nodup_cons] at h
    rcases List.mem_cons.mp hp with rfl | hp2 <;> rcases List.mem_cons.mp hq with h3 | hq2
    · rw [h3]
    · exact absurd (List.mem_map.mpr ⟨q, hq2, hk.symm⟩) h.1
    · exact absurd (List.mem_map.mpr ⟨p, hp2, (h3 ▸ hk)⟩) h.1
    · exact ih h.2 hp2 hq2

theorem mem_dictInsert (m : List (List Char × Nat)) (k : List Char) (v : Nat)
    (p : List Char × Nat) (h : p ∈ dictInsert m k v) :
    p = (k, v) ∨ (p ∈ m ∧ p.1 ≠ k) := by
  unfold dictInsert at h
  by_cases ha : m.any (fun q => q.1 == k)
  · rw [if_pos ha] at h
    rcases List.mem_map.mp h with ⟨q, hq, he⟩
    by_cases hk : q.1 = k
    · left
      rw [← he]
      simp [hk]
    · right
      rw [← he]
      simp only [beq_iff_eq, if_neg hk]
      exact ⟨hq, hk⟩
  · rw [if_neg ha] at h
    rcases List.mem_append.mp h with h1 | h1
    · right
      refine ⟨h1, fun hk => ha ?_⟩
      exact List.any_eq_true.mpr ⟨p, h1, by simp [hk]⟩
    · left
      simpa using h1

theorem self_mem_dictInsert (m : List (List Char × Nat)) (k : List Char) (v : Nat) :
    (k, v) ∈ dictInsert m k v := by
  unfold dictInsert
  by_cases ha : m.any (fun q => q.1 == k)
  · rw [if_pos ha]
    rcases List.any_eq_true.mp ha with ⟨q, hq, he⟩
    refine List.mem_map.mpr ⟨q, hq, ?_⟩
    simp only [beq_iff_eq] at he
    simp [he]
  · rw [if_neg ha]
    simp

theorem other_mem_dictInsert (m : List (List Char × Nat)) (k : List Char) (v : Nat)
    {p : List Char × Nat} (hp : p ∈ m) (hk : p.1 ≠ k) : p ∈ dictInsert m k v := by
  unfold dictInsert
  by_cases ha : m.any (fun q => q.1 == k)
  · rw [if_pos ha]
    refine List.mem_map.mpr ⟨p, hp, ?_⟩
    simp [hk]
  · rw [if_neg ha]
    exact List.mem_append_left _ hp

theorem keys_dictInsert (m : List (List Char × Nat)) (k : List Char) (v : Nat) :
    (dictInsert m k v).map Prod.fst =
      if k ∈ m.map Prod.fst then m.map Prod.fst else m.map Prod.fst ++ [k] := by
  unfold dictInsert
  by_cases ha : m.any (fun q => q.1 == k)
  · have hk : k ∈ m.map Prod.fst := by
      rcases List.any_eq_true.mp ha with ⟨q, hq, he⟩
      simp only [beq_iff_eq] at he
      exact List.mem_map.mpr ⟨q, hq, he⟩
    rw [if_pos ha, if_pos hk, List.map_map]
    apply List.map_congr_left
    intro p _
    by_cases hp : p.1 = k
    · simp [Function.comp, hp]
    · simp [Function.comp, hp]
  · have hk : k ∉ m.map Prod.fst := by
      intro hmem
      rcases List.mem_map.mp hmem with ⟨q, hq, he⟩
      exact ha (List.any_eq_true.mpr ⟨q, hq, by simp [he]⟩)
    rw [if_neg ha, if_neg hk, List.map_append]
    rfl

theorem nodupKeys_dictInsert (m : List (List Char × Nat)) (k : List Char) (v : Nat)
    (h : (m.map Prod.fst).Nodup) : ((dictInsert m k v).map Prod.fst).Nodup := by
  rw [keys_dictInsert]
  by_cases hk : k ∈ m.map Prod.fst
  · rwa [if_pos hk]
  · rw [if_neg hk]
    rw [List.nodup_append]
    refine ⟨h, List.nodup_singleton k, ?_⟩
    intro a ha hb
    rcases List.mem_singleton.mp hb with rfl
    exact hk ha

theorem dictInsert_of_mem (m : List (List Char × Nat)) (k : List Char) (v : Nat)
    (hn : (m.map Prod.fst).Nodup) (hm : (k, v) ∈ m) : dictInsert m k v = m := by
  unfold dictInsert
  have ha : m.any (fun q => q.1 == k) = true :=
    List.any_eq_true.mpr ⟨(k, v), hm, by simp⟩
  rw [if_pos ha]
  conv_rhs => rw [← List.map_id m]
  apply List.map_congr_left
  intro p hp
  by_cases hk : p.1 = k
  · have : p = (k, v) := nodupKeys_eq m hn hp hm hk
    simp [this]
  · simp [hk]

theorem dictGet_eq (m : List (List Char × Nat)) (hn : (m.map Prod.fst).Nodup)
    {k : List Char} {v : Nat} (hm : (k, v) ∈ m) : dictGet m k = v := by
  induction m with
  | nil => cases hm
  | cons a as ih =>
    by_cases ha : a.1 = k
    · have hav : a = (k, v) := by
        refine nodupKeys_eq (a :: as) hn (List.mem_cons_self a as) hm ha
      unfold dictGet
      rw [List.find?_cons_of_pos _ (by simp [ha])]
      rw [hav]
    · have hm2 : (k, v) ∈ as := by
        rcases List.mem_cons.mp hm with he | h2
        · exact absurd (by rw [← he]) ha
        · exact h2
      rw [List.map_cons, List.nodup_cons] at hn
      have := ih hn.2 hm2
      unfold dictGet at this ⊢
      rwa [List.find?_cons_of_neg _ (by simp [ha])]

theorem mem_keys_dictInsert (m : List (List Char × Nat)) (k : List Char) (v : Nat)
    (k' : List Char) :
    k' ∈ (dictInsert m k v).map Prod.fst ↔ (k' ∈ m.map Prod.fst ∨ k' = k) := by
  rw [keys_dictInsert]
  by_cases hk : k ∈ m.map Prod.fst
  · rw [if_pos hk]
    constructor
    · exact Or.inl
    · rintro (h | rfl)
      · exact h
      · exact hk
  · rw [if_neg hk]
    simp

theorem ctit_go_spec (lt : List Char) (tk : List (List Char)) :
    ∀ (rest : List (List Char)) (out : List (List Char × Nat)),
      (out.map Prod.fst).Nodup →
      (∀ p ∈ out, p.2 = (if ' ' ∈ normTerm p.1 then phraseCount (normTerm p.1) lt
                         else tk.count (normTerm p.1))) →
      ((ctit_go lt tk rest out).map Prod.fst).Nodup ∧
      (∀ p ∈ ctit_go lt tk rest out,
        p.2 = (if ' ' ∈ normTerm p.1 then phraseCount (normTerm p.1) lt
               else tk.count (normTerm p.1))) ∧
      (∀ k, k ∈ (ctit_go lt tk rest out).map Prod.fst ↔
        (k ∈ out.map Prod.fst ∨ (k ∈ rest ∧ ¬(normTerm k).isEmpty))) ∧
      (∀ p ∈ out, p ∈ ctit_go lt tk rest out) := by
  intro rest
  induction rest with
  | nil =>
    intro out hn hv
    refine ⟨hn, hv, ?_, fun p hp => hp⟩
    intro k
    simp [ctit_go]
  | cons original rest ih =>
    intro out hn hv
    by_cases hblank : (normTerm original).isEmpty
    · have hgo : ctit_go lt tk (original :: rest) out = ctit_go lt tk rest out := by
        simp [ctit_go, hblank]
      rcases ih out hn hv with ⟨c1, c2, c3, c4⟩
      rw [hgo]
      refine ⟨c1, c2, ?_, c4⟩
      intro k
      rw [c3 k]
      constructor
      · rintro (h | ⟨h1, h2⟩)
        · exact Or.inl h
        · exact Or.inr ⟨List.mem_cons_of_mem _ h1, h2⟩
      · rintro (h | ⟨h1, h2⟩)
        · exact Or.inl h
        · rcases List.mem_cons.mp h1 with rfl | h3
          · exact absurd hblank h2
          · exact Or.inr ⟨h3, h2⟩
    · have hval : ∀ (out' : List (List Char × Nat)) (v : Nat),
          v = (if ' ' ∈ normTerm original then phraseCount (normTerm original) lt
               else tk.count (normTerm original)) →
          out' = dictInsert out original v →
          ((ctit_go lt tk rest out').map Prod.fst).Nodup ∧
          (∀ p ∈ ctit_go lt tk rest out',
            p.2 = (if ' ' ∈ normTerm p.1 then phraseCount (normTerm p.1) lt
                   else tk.count (normTerm p.1))) ∧
          (∀ k, k ∈ (ctit_go lt tk rest out').map Prod.fst ↔
            (k ∈ out.map Prod.fst ∨ (k ∈ original :: rest ∧ ¬(normTerm k).isEmpty))) ∧
          (∀ p ∈ out, p ∈ ctit_go lt tk rest out') := by
        intro out' v hvdef hod
        have hn' : (out'.map Prod.fst).Nodup := by
          rw [hod]
          exact nodupKeys_dictInsert out original v hn
        have hv' : ∀ p ∈ out', p.2 =
            (if ' ' ∈ normTerm p.1 then phraseCount (normTerm p.1) lt
             else tk.count (normTerm p.1)) := by
          intro p hp
          rw [hod] at hp
          rcases mem_dictInsert out original v p hp with rfl | ⟨hpm, _⟩
          · exact hvdef
          · exact hv p hpm
        rcases ih out' hn' hv' with ⟨c1, c2, c3, c4⟩
        refine ⟨c1, c2, ?_, ?_⟩
        · intro k
          rw [c3 k, hod, mem_keys_dictInsert]
          constructor
          · rintro (⟨h | rfl⟩ | ⟨h1, h2⟩)
            · exact Or.inl h
            · exact Or.inr ⟨List.mem_cons_self _ _, hblank⟩
            · exact Or.inr ⟨List.mem_cons_of_mem _ h1, h2⟩
          · rintro (h | ⟨h1, h2⟩)
            · exact Or.inl (Or.inl h)
            · rcases List.mem_cons.mp h1 with rfl | h3
              · exact Or.inl (Or.inr rfl)
              · exact Or.inr ⟨h3, h2⟩
        · intro p hp
          apply c4
          rw [hod]
          by_cases hpk : p.1 = original
          · have hpv : p = (original, v) := by
              have h1 := hv p hp
              rw [hpk] at h1
              rw [← hvdef] at h1
              calc p = (p.1, p.2) := rfl
                _ = (original, v) := by rw [hpk, h1]
            rw [hpv]
            exact self_mem_dictInsert out original v
          · exact other_mem_dictInsert out original v hp hpk
      by_cases hsp : ' ' ∈ normTerm original
      · have hgo : ctit_go lt tk (original :: rest) out =
            ctit_go lt tk rest
              (dictInsert out original (phraseCount (normTerm original) lt)) := by
          simp [ctit_go, hblank, hsp]
        rw [hgo]
        exact hval _ _ (by rw [if_pos hsp]) rfl
      · have hgo : ctit_go lt tk (original :: rest) out =
            ctit_go lt tk rest
              (dictInsert out original (tk.count (normTerm original))) := by
          simp [ctit_go, hblank, hsp]
        rw [hgo]
        exact hval _ _ (by rw [if_neg hsp]) rfl

theorem ctit_spec (text : List Char) (terms : List (List Char)) :
    ((count_terms_in_text text terms).map Prod.fst).Nodup ∧
    (∀ p ∈ count_terms_in_text text terms,
      p.2 = (if ' ' ∈ normTerm p.1
             then phraseCount (normTerm p.1) (pyLower text)
             else (compoundTokens (pyLower text)).count (normTerm p.1))) ∧
    (∀ k, k ∈ (count_terms_in_text text terms).map Prod.fst ↔
      (k ∈ terms ∧ ¬(normTerm k).isEmpty)) := by
  rcases ctit_go_spec (pyLower text) (compoundTokens (pyLower text)) terms []
    (by simp) (by simp) with ⟨c1, c2, c3, _⟩
  refine ⟨c1, c2, ?_⟩
  intro k
  rw [show count_terms_in_text text terms =
    ctit_go (pyLower text) (compoundTokens (pyLower text)) terms [] from rfl, c3 k]
  simp

theorem ctit_go_append (lt : List Char) (tk : List (List Char)) :
    ∀ (a b : List (List Char)) (out : List (List Char × Nat)),
      ctit_go lt tk (a ++ b) out = ctit_go lt tk b (ctit_go lt tk a out) := by
  intro a
  induction a with
  | nil => intro b out; rfl
  | cons x xs ih =>
    intro b out
    by_cases hblank : (normTerm x).isEmpty
    · simp [ctit_go, hblank, ih]
    · by_cases hsp : ' ' ∈ normTerm x
      · simp [ctit_go, hblank, hsp, ih]
      · simp [ctit_go, hblank, hsp, ih]

theorem ctit_singleton (text : List Char) (original : List Char)
    (h : ¬(normTerm original).isEmpty) :
    count_terms_in_text text [original] =
      [(original,
        if ' ' ∈ normTerm original
        then phraseCount (normTerm original) (pyLower text)
        else (compoundTokens (pyLower text)).count (normTerm original))] := by
  by_cases hsp : ' ' ∈ normTerm original
  · simp [count_terms_in_text, ctit_go, dictInsert, h, hsp]
  · simp [count_terms_in_text, ctit_go, dictInsert, h, hsp]

theorem lexLt_asymm : ∀ a b : List Char, lexLt a b = true → lexLt b a = false := by
  intro a
  induction a with
  | nil =>
    intro b h
    cases b with
    | nil => simp [lexLt] at h
    | cons y ys => simp [lexLt]
  | cons x xs ih =>
    intro b h
    cases b with
    | nil => simp [lexLt] at h
    | cons y ys =>
      simp only [lexLt] at h ⊢
      by_cases h1 : x.toNat < y.toNat
      · rw [if_neg (by omega), if_pos h1]
      · by_cases h2 : y.toNat < x.toNat
        · rw [if_neg h1, if_pos h2] at h
          exact absurd h (by simp)
        · rw [if_neg h1, if_neg h2] at h
          rw [if_neg h2, if_neg h1]
          exact ih ys h

theorem lexLt_trans : ∀ a b c : List Char,
    lexLt a b = true → lexLt b c = true → lexLt a c = true := by
  intro a
  induction a with
  | nil =>
    intro b c hab hbc
    cases c with
    | nil =>
      cases b with
      | nil => simp [lexLt] at hab
      | cons y ys => simp [lexLt] at hbc
    | cons z zs => simp [lexLt]
  | cons x xs ih =>
    intro b c hab hbc
    cases b with
    | nil => simp [lexLt] at hab
    | cons y ys =>
      cases c with
      | nil => simp [lexLt] at hbc
      | cons z zs =>
        simp only [lexLt] at hab hbc ⊢
        by_cases h1 : x.toNat < y.toNat
        · by_cases h2 : y.toNat < z.toNat
          · rw [if_pos (by omega)]
          · by_cases h3 : z.toNat < y.toNat
            · rw [if_neg h2, if_pos h3] at hbc
              exact absurd hbc (by simp)
            · have : y.toNat = z.toNat := by omega
              rw [if_pos (by omega)]
        · by_cases h1' : y.toNat < x.toNat
          · rw [if_neg h1, if_pos h1'] at hab
            exact absurd hab (by simp)
          · have hxy : x.toNat = y.toNat := by omega
            rw [if_neg h1, if_neg h1'] at hab
            by_cases h2 : y.toNat < z.toNat
            · rw [if_pos (by omega)]
            · by_cases h3 : z.toNat < y.toNat
              · rw [if_neg h2, if_pos h3] at hbc
                exact absurd hbc (by simp)
              · rw [if_neg h2, if_neg h3] at hbc
                rw [if_neg (by omega), if_neg (by omega)]
                exact ih ys zs hab hbc

theorem lexLt_connect : ∀ a b : List Char,
    lexLt a b = false → lexLt b a = false → a = b := by
  intro a
  induction a with
  | nil =>
    intro b hab _
    cases b with
    | nil => rfl
    | cons y ys => simp [lexLt] at hab
  | cons x xs ih =>
    intro b hab hba
    cases b with
    | nil => simp [lexLt] at hba
    | cons y ys =>
      simp only [lexLt] at hab hba
      by_cases h1 : x.toNat < y.toNat
      · rw [if_pos h1] at hab
        exact absurd hab (by simp)
      · by_cases h2 : y.toNat < x.toNat
        · rw [if_pos h2] at hba
          exact absurd hba (by simp)
        · rw [if_neg h1, if_neg h2] at hab
          have hn : x.toNat = y.toNat := by omega
          have hxy : x = y := Char.ext (UInt32.ext hn)
          rw [if_neg h2, if_neg h1] at hba
          rw [hxy, ih ys hab hba]

theorem insertSorted_perm (x : List Char) :
    ∀ l, (insertSorted x l).Perm (x :: l) := by
  intro l
  induction l with
  | nil => simp [insertSorted]
  | cons y ys ih =>
    simp only [insertSorted]
    by_cases h : lexLt x y
    · rw [if_pos h]
    · rw [if_neg h]
      exact List.Perm.trans (List.Perm.cons y ih) (List.Perm.swap x y ys)

theorem sortKeys_perm : ∀ l, (sortKeys l).Perm l := by
  intro l
  induction l with
  | nil => simp [sortKeys]
  | cons x xs ih =>
    simp only [sortKeys]
    exact List.Perm.trans (insertSorted_perm x (sortKeys xs)) (List.Perm.cons x ih)

theorem pairwise_insertSorted (x : List Char) :
    ∀ l, l.Pairwise (fun a b => lexLt b a = false) →
      (insertSorted x l).Pairwise (fun a b => lexLt b a = false) := by
  intro l
  induction l with
  | nil =>
    intro _
    simp [insertSorted]
  | cons y ys ih =>
    intro hp
    rcases List.pairwise_cons.mp hp with ⟨hy, hys⟩
    simp only [insertSorted]
    by_cases h : lexLt x y
    · rw [if_pos h]
      apply List.pairwise_cons.mpr
      refine ⟨?_, hp⟩
      intro z hz
      rcases List.mem_cons.mp hz with rfl | hz2
      · exact lexLt_asymm x z h
      · cases hzx : lexLt z x with
        | false => rfl
        | true =>
          have := lexLt_trans z x y hzx h
          rw [hy z hz2] at this
          exact absurd this (by simp)
    · rw [if_neg h]
      apply List.pairwise_cons.mpr
      constructor
      · intro z hz
        rcases List.mem_cons.mp ((insertSorted_perm x ys).mem_iff.mp hz) with rfl | hz3
        · exact Bool.eq_false_iff.mpr h
        · exact hy z hz3
      · exact ih hys

theorem pairwise_sortKeys : ∀ l,
    (sortKeys l).Pairwise (fun a b => lexLt b a = false) := by
  intro l
  induction l with
  | nil => simp [sortKeys]
  | cons x xs ih =>
    simp only [sortKeys]
    exact pairwise_insertSorted x (sortKeys xs) ih

theorem pairwise_lt_sortKeys (l : List (List Char)) (hnd : l.Nodup) :
    (sortKeys l).Pairwise (fun a b => lexLt a b = true) := by
  have hp := pairwise_sortKeys l
  have hnd' : (sortKeys l).Nodup := (sortKeys_perm l).symm.nodup hnd
  refine (hp.and hnd').imp ?_
  intro a b hab
  cases hlt : lexLt a b with
  | true => rfl
  | false => exact absurd (lexLt_connect a b hlt hab.1) hab.2

theorem map_fst_pair_id (tied : List (List Char)) (g : List Char → Nat) :
    ((tied.map (fun k => (k, g k))).map Prod.fst) = tied := by
  induction tied with
  | nil => rfl
  | cons a as ih => simp only [List.map_cons, ih]

theorem selector_spec (counts : List (List Char × Nat)) (M : Nat)
    (tied : List (List Char)) (m : List (List Char × Nat))
    (hn : (counts.map Prod.fst).Nodup) (hne : counts ≠ [])
    (hM : M = listMax (counts.map Prod.snd))
    (htied : tied = sortKeys ((counts.filter (fun p => p.2 == M)).map Prod.fst))
    (hm : m = tied.map (fun k => (k, dictGet counts k))) :
    m ≠ [] ∧ (∀ p ∈ m, p.2 = M) ∧ m.map Prod.fst = tied ∧
      tied.Pairwise (fun a b => lexLt a b = true) := by
  have hmapne : counts.map Prod.snd ≠ [] := by
    cases counts with
    | nil => cases hne rfl
    | cons a as => simp
  have hMmem : M ∈ counts.map Prod.snd := hM ▸ listMax_mem _ hmapne
  obtain ⟨p0, hp0, hp0v⟩ := List.mem_map.mp hMmem
  have hp0f : p0 ∈ counts.filter (fun p => p.2 == M) :=
    List.mem_filter.mpr ⟨hp0, by simp [hp0v]⟩
  have hkF : p0.1 ∈ (counts.filter (fun p => p.2 == M)).map Prod.fst :=
    List.mem_map.mpr ⟨p0, hp0f, rfl⟩
  have hndF : ((counts.filter (fun p => p.2 == M)).map Prod.fst).Nodup :=
    ((List.filter_sublist counts).map Prod.fst).nodup hn
  have htne : tied ≠ [] := by
    intro he
    have := (sortKeys_perm _).symm.mem_iff.mp hkF
    rw [← htied, he] at this
    cases this
  refine ⟨?_, ?_, ?_, ?_⟩
  · intro he
    apply htne
    rw [hm] at he
    cases tied with
    | nil => rfl
    | cons a as => exact absurd he (by simp)
  · intro p hp
    rw [hm] at hp
    rcases List.mem_map.mp hp with ⟨k, hk, rfl⟩
    have hkmem : k ∈ (counts.filter (fun p => p.2 == M)).map Prod.fst := by
      rw [htied] at hk
      exact (sortKeys_perm _).mem_iff.mp hk
    rcases List.mem_map.mp hkmem with ⟨q, hq, hqk⟩
    rcases List.mem_filter.mp hq with ⟨hqc, hqM⟩
    have hqM' : q.2 = M := by simpa using hqM
    have hkv : (k, M) ∈ counts := by
      have : q = (k, M) := by
        calc q = (q.1, q.2) := rfl
          _ = (k, M) := by rw [hqk, hqM']
      rw [← this]
      exact hqc
    exact dictGet_eq counts hn hkv
  · rw [hm]
    exact map_fst_pair_id tied _
  · rw [htied]
    exact pairwise_lt_sortKeys _ hndF

theorem top_sel_spec (top : List (List Char × Nat)) (V : Nat)
    (m : List (List Char × Nat))
    (hn : (top.map Prod.fst).Nodup) (hne : top ≠ [])
    (hv : ∀ p ∈ top, p.2 = V)
    (hm : m = (sortKeys (top.map Prod.fst)).map (fun k => (k, dictGet top k))) :
    m ≠ [] ∧ (∀ p ∈ m, p.2 = V) ∧ m.map Prod.fst = sortKeys (top.map Prod.fst) ∧
      (sortKeys (top.map Prod.fst)).Pairwise (fun a b => lexLt a b = true) := by
  have hkne : top.map Prod.fst ≠ [] := by
    cases top with
    | nil => cases hne rfl
    | cons a as => simp
  have hsne : sortKeys (top.map Prod.fst) ≠ [] := by
    intro he
    rcases List.exists_mem_of_ne_nil _ hkne with ⟨k, hk⟩
    have := (sortKeys_perm (top.map Prod.fst)).symm.mem_iff.mp hk
    rw [he] at this
    cases this
  refine ⟨?_, ?_, ?_, ?_⟩
  · intro he
    apply hsne
    rw [hm] at he
    cases hc : sortKeys (top.map Prod.fst) with
    | nil => rfl
    | cons a as =>
      rw [hc] at he
      exact absurd he (by simp)
  · intro p hp
    rw [hm] at hp
    rcases List.mem_map.mp hp with ⟨k, hk, rfl⟩
    have hkmem : k ∈ top.map Prod.fst := (sortKeys_perm _).mem_iff.mp hk
    rcases List.mem_map.mp hkmem with ⟨q, hq, hqk⟩
    have hkv : (k, V) ∈ top := by
      have : q = (k, V) := by
        calc q = (q.1, q.2) := rfl
          _ = (k, V) := by rw [hqk, hv q hq]
      rw [← this]
      exact hq
    exact dictGet_eq top hn hkv
  · rw [hm]
    exact map_fst_pair_id _ _
  · exact pairwise_lt_sortKeys _ hn

theorem const_max_pack (m : List (List Char × Nat)) (M : Nat) (hne : m ≠ [])
    (hv : ∀ p ∈ m, p.2 = M) :
    (∀ p ∈ m, ∀ q ∈ m, p.2 = q.2) ∧
    (∀ p ∈ m, p.2 = listMax (m.map Prod.snd)) := by
  have hmne : m.map Prod.snd ≠ [] := by
    cases m with
    | nil => cases hne rfl
    | cons a as => simp
  have hmax : listMax (m.map Prod.snd) = M := by
    apply listMax_const _ _ hmne
    intro x hx
    rcases List.mem_map.mp hx with ⟨p, hp, rfl⟩
    exact hv p hp
  exact ⟨fun p hp q hq => (hv p hp).trans (hv q hq).symm,
         fun p hp => (hv p hp).trans hmax.symm⟩

theorem ne_nil_of_not_isEmpty {α : Type} {l : List α} (h : ¬l.isEmpty = true) :
    l ≠ [] := by
  cases l with
  | nil => exact absurd rfl h
  | cons a as => simp

theorem distinctKeys_nodup : ∀ l, (distinctKeys l).Nodup := by
  intro l
  induction l with
  | nil => simp [distinctKeys]
  | cons a as ih =>
    simp only [distinctKeys]
    rw [List.nodup_cons]
    constructor
    · intro hmem
      rcases List.mem_filter.mp hmem with ⟨_, hne⟩
      simp at hne
    · exact List.Nodup.filter _ ih

theorem distinctKeys_mem : ∀ (l : List (List Char)) (k : List Char),
    k ∈ distinctKeys l ↔ k ∈ l := by
  intro l
  induction l with
  | nil => simp [distinctKeys]
  | cons a as ih =>
    intro k
    simp only [distinctKeys, List.mem_cons]
    constructor
    · rintro (rfl | h)
      · exact Or.inl rfl
      · exact Or.inr ((ih k).mp (List.mem_filter.mp h).1)
    · rintro (rfl | h)
      · exact Or.inl rfl
      · by_cases hk : k = a
        · exact Or.inl hk
        · exact Or.inr (List.mem_filter.mpr ⟨(ih k).mpr h, by simp [hk]⟩)

theorem count_top_words_nodup (text : List Char) :
    ((count_top_words text).map Prod.fst).Nodup := by
  rw [count_top_words]
  by_cases he : (plainTokens (pyLower text)).isEmpty
  · simp [he]
  · simp only [he, if_false, Bool.false_eq_true]
    apply List.Nodup.sublist ((List.filter_sublist _).map Prod.fst)
    rw [map_fst_pair_id]
    exact distinctKeys_nodup _

theorem count_top_words_val (text : List Char) :
    ∀ p ∈ count_top_words text,
      p.2 = listMax (((distinctKeys (plainTokens (pyLower text))).map
        (fun w => (w, (plainTokens (pyLower text)).count w))).map Prod.snd) := by
  rw [count_top_words]
  by_cases he : (plainTokens (pyLower text)).isEmpty
  · simp [he]
  · simp only [he, if_false, Bool.false_eq_true]
    intro p hp
    rcases List.mem_filter.mp hp with ⟨_, hM⟩
    simpa using hM

/-- C1: a non-error result of `build_result` has at least one key, all of its
values are equal to one another and equal to the mapping's maximum value, and
its keys appear in ascending sorted (code-point) order. -/
theorem build_result_invariants (text : List Char) (terms : List (List Char))
    (m : List (List Char × Nat)) (h : build_result text terms = Result.counts m) :
    m ≠ [] ∧ (∀ p ∈ m, ∀ q ∈ m, p.2 = q.2) ∧
    (∀ p ∈ m, p.2 = listMax (m.map Prod.snd)) ∧
    (m.map Prod.fst).Pairwise (fun a b => lexLt a b = true) := by
  simp only [build_result] at h
  split_ifs at h with h1 h2 h3 h4
  · cases h
    rcases ctit_spec text terms with ⟨hn, _, _⟩
    obtain ⟨mne, hvals, hkeys, hpair⟩ :=
      selector_spec (count_terms_in_text text terms) _ _ _
        hn (ne_nil_of_not_isEmpty h3) rfl rfl rfl
    obtain ⟨heq, hmax⟩ := const_max_pack _ _ mne hvals
    exact ⟨mne, heq, hmax, by rw [hkeys]; exact hpair⟩
  · cases h
    obtain ⟨mne, hvals, hkeys, hpair⟩ :=
      top_sel_spec (count_top_words text) _ _
        (count_top_words_nodup text) (ne_nil_of_not_isEmpty h4)
        (count_top_words_val text) rfl
    obtain ⟨heq, hmax⟩ := const_max_pack _ _ mne hvals
    exact ⟨mne, heq, hmax, by rw [hkeys]; exact hpair⟩

/-- C1 witness: the invariants hold for the concrete result of
`build_result "cat cat dog" []`. -/
theorem build_result_invariants_witness :
    ([(strL "cat", 2)] : List (List Char × Nat)) ≠ [] ∧
    (∀ p ∈ ([(strL "cat", 2)] : List (List Char × Nat)),
      ∀ q ∈ ([(strL "cat", 2)] : List (List Char × Nat)), p.2 = q.2) ∧
    (∀ p ∈ ([(strL "cat", 2)] : List (List Char × Nat)),
      p.2 = listMax (([(strL "cat", 2)] : List (List Char × Nat)).map Prod.snd)) ∧
    (([(strL "cat", 2)] : List (List Char × Nat)).map Prod.fst).Pairwise
      (fun a b => lexLt a b = true) :=
  build_result_invariants (strL "cat cat dog") [] [(strL "cat", 2)] (by decide)

/-- C8: for input text that is empty or whitespace-only after trimming,
`build_result` returns the fixed error result (`{"error": "문자가 없습니다"}`)
and never a count mapping, whatever the term list. -/
theorem blank_text_error (text : List Char) (terms : List (List Char))
    (h : (pyStrip text).isEmpty = true) :
    build_result text terms = Result.error errMsg ∧
    ∀ m, build_result text terms ≠ Result.counts m := by
  have he : build_result text terms = Result.error errMsg := by
    simp [build_result, h]
  refine ⟨he, fun m hc => ?_⟩
  rw [he] at hc
  cases hc

/-- C8 witness: scenario E, whitespace-only text. -/
theorem blank_text_error_witness :
    build_result (strL "   ") [] = Result.error errMsg :=
  (blank_text_error (strL "   ") [] (by decide)).1

/-- C2 counterexample: text `"cat cat dog"` is non-blank and the single
supplied term `"   "` is blank after trimming, yet `build_result` does not
return the "no characters" error: it falls back to the no-terms top-words
mode and returns `{"cat": 2}`. -/
theorem all_blank_terms_counterexample :
    (pyStrip (strL "cat cat dog")).isEmpty = false ∧
    (pyStrip (strL "   ")).isEmpty = true ∧
    build_result (strL "cat cat dog") [strL "   "] =
      Result.counts [(strL "cat", 2)] ∧
    build_result (strL "cat cat dog") [strL "   "] ≠ Result.error errMsg := by
  refine ⟨by decide, by decide, by decide, by decide⟩

/-- C2 (amended): when every supplied term is blank after trimming,
`build_result` behaves exactly as if no terms had been supplied at all — it
falls back to the no-terms top-words mode, so it yields the "no characters"
error only when that mode does. -/
theorem all_blank_terms_fall_back (text : List Char) (terms : List (List Char))
    (h : ∀ t ∈ terms, (pyStrip t).isEmpty = true) :
    build_result text terms = build_result text [] := by
  have hany : terms.any (fun t => !(pyStrip t).isEmpty) = false := by
    rw [List.any_eq_false]
    intro t ht
    simp [h t ht]
  have hrt : hasRealTerm terms = false := by
    unfold hasRealTerm
    rw [hany, Bool.and_false]
  have h0 : hasRealTerm ([] : List (List Char)) = false := rfl
  simp [build_result, hrt, h0]

/-- C2 amended-claim witness at a concrete input. -/
theorem all_blank_terms_fall_back_witness :
    build_result (strL "cat cat dog") [strL "   "] =
      build_result (strL "cat cat dog") [] :=
  all_blank_terms_fall_back (strL "cat cat dog") [strL "   "] (by decide)

theorem ctit_ne_nil (text : List Char) (terms : List (List Char))
    (h2 : hasRealTerm terms = true) : count_terms_in_text text terms ≠ [] := by
  rcases ctit_spec text terms with ⟨_, _, hk⟩
  unfold hasRealTerm at h2
  rw [Bool.and_eq_true] at h2
  rcases h2 with ⟨_, hany⟩
  rcases List.any_eq_true.mp hany with ⟨t, ht, hbt⟩
  have hret : ¬(normTerm t).isEmpty = true := by
    intro hemp
    cases hs : pyStrip t with
    | nil =>
      rw [hs] at hbt
      simp at hbt
    | cons a as =>
      unfold normTerm pyLower at hemp
      rw [hs] at hemp
      simp at hemp
  have hmem : t ∈ (count_terms_in_text text terms).map Prod.fst :=
    (hk t).mpr ⟨ht, hret⟩
  intro hnil
  rw [hnil] at hmem
  cases hmem

/-- C10: whenever the term-matching branch applies (the term list is nonempty
and some supplied term is non-blank after stripping), `count_terms_in_text`
returns a nonempty mapping, so the inner "no characters" error of that branch
is unreachable: with non-blank text the branch always returns a count
mapping. -/
theorem term_branch_no_inner_error (text : List Char) (terms : List (List Char))
    (h2 : hasRealTerm terms = true) :
    count_terms_in_text text terms ≠ [] ∧
    ((pyStrip text).isEmpty = false →
      ∃ m, build_result text terms = Result.counts m) := by
  have hcne : count_terms_in_text text terms ≠ [] := ctit_ne_nil text terms h2
  refine ⟨hcne, ?_⟩
  intro h1
  have h3 : (count_terms_in_text text terms).isEmpty = false := by
    cases hc : count_terms_in_text text terms with
    | nil => exact absurd hc hcne
    | cons a as => rfl
  refine ⟨(sortKeys (((count_terms_in_text text terms).filter
      (fun p => p.2 == listMax ((count_terms_in_text text terms).map Prod.snd))).map
        Prod.fst)).map (fun k => (k, dictGet (count_terms_in_text text terms) k)), ?_⟩
  simp [build_result, h1, h2, h3]

/-- C10 witness: scenario F input takes the term branch and yields a count
mapping. -/
theorem term_branch_no_inner_error_witness :
    count_terms_in_text (strL "apple banana")
      [strL "apple", strL "banana", strL "cherry"] ≠ [] ∧
    (∃ m, build_result (strL "apple banana")
      [strL "apple", strL "banana", strL "cherry"] = Result.counts m) := by
  have h := term_branch_no_inner_error (strL "apple banana")
    [strL "apple", strL "banana", strL "cherry"] (by decide)
  exact ⟨h.1, h.2 (by decide)⟩

theorem mem_of_key_mem (text : List Char) (terms : List (List Char))
    (k : List Char) (hmem : k ∈ (count_terms_in_text text terms).map Prod.fst) :
    (k, if ' ' ∈ normTerm k then phraseCount (normTerm k) (pyLower text)
        else (compoundTokens (pyLower text)).count (normTerm k))
      ∈ count_terms_in_text text terms := by
  rcases ctit_spec text terms with ⟨_, hv, _⟩
  rcases List.mem_map.mp hmem with ⟨p, hp, hpk⟩
  have hval := hv p hp
  have hpe : p = (k, if ' ' ∈ normTerm k
      then phraseCount (normTerm k) (pyLower text)
      else (compoundTokens (pyLower text)).count (normTerm k)) := by
    calc p = (p.1, p.2) := rfl
      _ = _ := by rw [hval, hpk]
  rw [← hpe]
  exact hp

/-- C9: each retained term is keyed by the original string exactly as supplied
(with its deterministic count), the mapping has no duplicate keys, and
supplying the same original term string a second time leaves the result of
`count_terms_in_text` unchanged (last write wins, observably idempotent). -/
theorem term_key_is_original :
    (∀ (text : List Char) (terms : List (List Char)) (original : List Char),
      original ∈ terms → ¬(normTerm original).isEmpty = true →
      (original,
        if ' ' ∈ normTerm original
        then phraseCount (normTerm original) (pyLower text)
        else (compoundTokens (pyLower text)).count (normTerm original))
          ∈ count_terms_in_text text terms ∧
      ((count_terms_in_text text terms).map Prod.fst).Nodup) ∧
    (∀ (text : List Char) (l1 l2 l3 : List (List Char)) (t : List Char),
      count_terms_in_text text (l1 ++ [t] ++ l2 ++ [t] ++ l3) =
        count_terms_in_text text (l1 ++ [t] ++ l2 ++ l3)) := by
  constructor
  · intro text terms original hin hne
    rcases ctit_spec text terms with ⟨hn, _, hk⟩
    exact ⟨mem_of_key_mem text terms original ((hk original).mpr ⟨hin, hne⟩), hn⟩
  · intro text l1 l2 l3 t
    unfold count_terms_in_text
    simp only [ctit_go_append]
    by_cases hbt : (normTerm t).isEmpty
    · have hskip : ∀ out, ctit_go (pyLower text) (compoundTokens (pyLower text)) [t] out
          = out := by
        intro out
        simp [ctit_go, hbt]
      simp only [hskip]
    · have hinv0 := ctit_go_spec (pyLower text) (compoundTokens (pyLower text))
        l1 [] (by simp) (by simp)
      have hinv1 := ctit_go_spec (pyLower text) (compoundTokens (pyLower text))
        [t] (ctit_go (pyLower text) (compoundTokens (pyLower text)) l1 [])
        hinv0.1 hinv0.2.1
      have htmem : (t, if ' ' ∈ normTerm t
          then phraseCount (normTerm t) (pyLower text)
          else (compoundTokens (pyLower text)).count (normTerm t)) ∈
          ctit_go (pyLower text) (compoundTokens (pyLower text)) [t]
            (ctit_go (pyLower text) (compoundTokens (pyLower text)) l1 []) := by
        have hkm : t ∈ (ctit_go (pyLower text) (compoundTokens (pyLower text)) [t]
            (ctit_go (pyLower text) (compoundTokens (pyLower text)) l1 [])).map
              Prod.fst :=
          (hinv1.2.2.1 t).mpr (Or.inr ⟨List.mem_singleton.mpr rfl, hbt⟩)
        rcases List.mem_map.mp hkm with ⟨p, hp, hpk⟩
        have hval := hinv1.2.1 p hp
        have hpe : p = (t, if ' ' ∈ normTerm t
            then phraseCount (normTerm t) (pyLower text)
            else (compoundTokens (pyLower text)).count (normTerm t)) := by
          calc p = (p.1, p.2) := rfl
            _ = _ := by rw [hval, hpk]
        rw [← hpe]
        exact hp
      have hinv2 := ctit_go_spec (pyLower text) (compoundTokens (pyLower text))
        l2 (ctit_go (pyLower text) (compoundTokens (pyLower text)) [t]
          (ctit_go (pyLower text) (compoundTokens (pyLower text)) l1 []))
        hinv1.1 hinv1.2.1
      have htmem2 := hinv2.2.2.2 _ htmem
      by_cases hsp : ' ' ∈ normTerm t
      · have hstep : ∀ out, ctit_go (pyLower text) (compoundTokens (pyLower text))
            [t] out = dictInsert out t (phraseCount (normTerm t) (pyLower text)) := by
          intro out
          simp [ctit_go, hbt, hsp]
        rw [if_pos hsp] at htmem2
        have hinner := dictInsert_of_mem _ _ _ hinv2.1 htmem2
        rw [hstep, hinner]
      · have hstep : ∀ out, ctit_go (pyLower text) (compoundTokens (pyLower text))
            [t] out = dictInsert out t
              ((compoundTokens (pyLower text)).count (normTerm t)) := by
          intro out
          simp [ctit_go, hbt, hsp]
        rw [if_neg hsp] at htmem2
        have hinner := dictInsert_of_mem _ _ _ hinv2.1 htmem2
        rw [hstep, hinner]

/-- C9 witness: with text `"a a b"` and terms `["a", "b", "a"]` the key `"a"`
appears once with its count, and the duplicate supply changes nothing. -/
theorem term_key_is_original_witness :
    ((strL "a",
      if ' ' ∈ normTerm (strL "a")
      then phraseCount (normTerm (strL "a")) (pyLower (strL "a a b"))
      else (compoundTokens (pyLower (strL "a a b"))).count (normTerm (strL "a")))
        ∈ count_terms_in_text (strL "a a b") [strL "a", strL "b", strL "a"] ∧
      ((count_terms_in_text (strL "a a b")
        [strL "a", strL "b", strL "a"]).map Prod.fst).Nodup) ∧
    count_terms_in_text (strL "a a b")
        ([] ++ [strL "a"] ++ [strL "b"] ++ [strL "a"] ++ []) =
      count_terms_in_text (strL "a a b") ([] ++ [strL "a"] ++ [strL "b"] ++ []) :=
  ⟨term_key_is_original.1 (strL "a a b") [strL "a", strL "b", strL "a"] (strL "a")
      (by decide) (by decide),
   term_key_is_original.2 (strL "a a b") [] [strL "b"] [] (strL "a")⟩

/-- C3: a word term (no space in its trimmed-lowered form) is counted only as
exact whole-unit matches against the compound-token vocabulary, so the
compound `hello-world` never contributes to the bare word `hello`; in
particular `build_result("hello-world hello", ["hello"]) = {"hello": 1}`. -/
theorem word_term_whole_unit :
    (∀ (text original : List Char), ¬(normTerm original).isEmpty = true →
      ¬(' ' ∈ normTerm original) →
      count_terms_in_text text [original] =
        [(original, (compoundTokens (pyLower text)).count (normTerm original))]) ∧
    compoundTokens (pyLower (strL "hello-world hello")) =
      [strL "hello-world", strL "hello"] ∧
    build_result (strL "hello-world hello") [strL "hello"] =
      Result.counts [(strL "hello", 1)] := by
  refine ⟨?_, by decide, by decide⟩
  intro text original hne hsp
  rw [ctit_singleton text original hne, if_neg hsp]

/-- C3 witness: scenario C, instantiated. -/
theorem word_term_whole_unit_witness :
    count_terms_in_text (strL "hello-world hello") [strL "hello"] =
      [(strL "hello",
        (compoundTokens (pyLower (strL "hello-world hello"))).count
          (normTerm (strL "hello")))] :=
  word_term_whole_unit.1 (strL "hello-world hello") (strL "hello")
    (by decide) (by decide)

/-- C7: a retained word term absent from the compound-token vocabulary is
reported with count 0 rather than omitted, and when 0 is the maximum count
`build_result` returns all retained terms tied at 0 rather than an error. -/
theorem zero_count_terms :
    (∀ (text : List Char) (terms : List (List Char)) (original : List Char),
      original ∈ terms → ¬(normTerm original).isEmpty = true →
      ¬(' ' ∈ normTerm original) →
      (compoundTokens (pyLower text)).count (normTerm original) = 0 →
      (original, 0) ∈ count_terms_in_text text terms) ∧
    (∀ (text : List Char) (terms : List (List Char)),
      (pyStrip text).isEmpty = false → hasRealTerm terms = true →
      (∀ p ∈ count_terms_in_text text terms, p.2 = 0) →
      ∃ m, build_result text terms = Result.counts m ∧ m ≠ [] ∧
        (∀ p ∈ m, p.2 = 0) ∧
        (m.map Prod.fst).Perm ((count_terms_in_text text terms).map Prod.fst)) := by
  constructor
  · intro text terms original hin hne hsp hcnt
    rcases ctit_spec text terms with ⟨_, _, hk⟩
    have hm := mem_of_key_mem text terms original ((hk original).mpr ⟨hin, hne⟩)
    rw [if_neg hsp, hcnt] at hm
    exact hm
  · intro text terms h1 h2 hv0
    have hcne : count_terms_in_text text terms ≠ [] := ctit_ne_nil text terms h2
    have h3 : (count_terms_in_text text terms).isEmpty = false := by
      cases hc : count_terms_in_text text terms with
      | nil => exact absurd hc hcne
      | cons a as => rfl
    have hb : build_result text terms = Result.counts
        ((sortKeys (((count_terms_in_text text terms).filter
          (fun p => p.2 == listMax ((count_terms_in_text text terms).map Prod.snd))).map
            Prod.fst)).map
          (fun k => (k, dictGet (count_terms_in_text text terms) k))) := by
      simp [build_result, h1, h2, h3]
    have hM0 : listMax ((count_terms_in_text text terms).map Prod.snd) = 0 := by
      apply listMax_const
      · cases hc : count_terms_in_text text terms with
        | nil => exact absurd hc hcne
        | cons a as => simp
      · intro x hx
        rcases List.mem_map.mp hx with ⟨p, hp, rfl⟩
        exact hv0 p hp
    have hfilter : (count_terms_in_text text terms).filter
        (fun p => p.2 == listMax ((count_terms_in_text text terms).map Prod.snd)) =
        count_terms_in_text text terms := by
      apply List.filter_eq_self.mpr
      intro p hp
      rw [hv0 p hp, hM0]
      simp
    rcases ctit_spec text terms with ⟨hn, _, _⟩
    obtain ⟨mne, hvals, hkeys, _⟩ :=
      selector_spec (count_terms_in_text text terms) _ _ _ hn hcne rfl rfl rfl
    refine ⟨_, hb, mne, ?_, ?_⟩
    · intro p hp
      rw [hvals p hp, hM0]
    · rw [hkeys, hfilter]
      exact sortKeys_perm _

/-- C7 witness: with text `"apple banana"` and the absent terms `"cherry"`,
`"zebra"`, the pair `("cherry", 0)` is reported and the result is not the
error value. -/
theorem zero_count_terms_witness :
    (strL "cherry", 0) ∈ count_terms_in_text (strL "apple banana")
      [strL "cherry", strL "zebra"] ∧
    build_result (strL "apple banana") [strL "cherry", strL "zebra"] ≠
      Result.error errMsg := by
  constructor
  · exact zero_count_terms.1 (strL "apple banana") [strL "cherry", strL "zebra"]
      (strL "cherry") (by decide) (by decide) (by decide) (by decide)
  · obtain ⟨m, hm, _, _, _⟩ := zero_count_terms.2 (strL "apple banana")
      [strL "cherry", strL "zebra"] (by decide) (by decide) (by decide)
    intro hc
    rw [hm] at hc
    cases hc

theorem afterOk_eq (xs : List Char) : afterOk xs = (xs[0]?).all pyIsSpace := by
  cases xs with
  | nil => rfl
  | cons d ds => simp [afterOk]

theorem phraseScanS_skip (term : List Char) :
    ∀ (s : List Char) (k : Nat) (b : Bool),
      phraseScanS term s b (k + 1) =
        phraseScanS term (s.drop (k + 1)) ((s[k]?).all pyIsSpace) 0 := by
  intro s
  induction s with
  | nil =>
    intro k b
    simp [phraseScanS]
  | cons c cs ih =>
    intro k b
    cases k with
    | zero => simp [phraseScanS, Option.all]
    | succ k' =>
      have h1 : phraseScanS term (c :: cs) b (k' + 1 + 1) =
          phraseScanS term cs (pyIsSpace c) (k' + 1) := rfl
      rw [h1, ih k' (pyIsSpace c)]
      simp

theorem phraseScanS_skip_all (term : List Char) (s : List Char) (j : Nat)
    (b : Bool) (hj : 1 ≤ j) :
    phraseScanS term s b j =
      phraseScanS term (s.drop j) ((s[j-1]?).all pyIsSpace) 0 := by
  cases j with
  | zero => omega
  | succ k =>
    rw [phraseScanS_skip term s k b]
    simp

theorem phraseScanS_eq_idxScan (term text : List Char) (hne : term ≠ []) :
    ∀ (d i : Nat), text.length - i ≤ d →
      phraseScanS term (text.drop i)
        ((i == 0 || (text[i-1]?).all pyIsSpace)) 0 = idxScan term text i := by
  have hlen : 1 ≤ term.length := by
    cases term with
    | nil => exact absurd rfl hne
    | cons a as => simp
  intro d
  induction d with
  | zero =>
    intro i hi
    have hge : text.length ≤ i := by omega
    rw [List.drop_eq_nil_of_le hge, idxScan, if_neg (by omega)]
    rfl
  | succ d ih =>
    intro i hi
    by_cases hlt : i < text.length
    case neg =>
      have hge : text.length ≤ i := by omega
      rw [List.drop_eq_nil_of_le hge, idxScan, if_neg (by omega)]
      rfl
    case pos =>
      have hdrop : text.drop i = text[i] :: text.drop (i+1) :=
        List.drop_eq_getElem_cons hlt
      have hstep : phraseScanS term (text[i] :: text.drop (i+1))
          ((i == 0 || (text[i-1]?).all pyIsSpace)) 0 =
          if ((i == 0 || (text[i-1]?).all pyIsSpace) &&
              litMatch term (text[i] :: text.drop (i+1)) &&
              afterOk (List.drop term.length (text[i] :: text.drop (i+1)))) = true then
            1 + phraseScanS term (text.drop (i+1)) (pyIsSpace text[i]) (term.length - 1)
          else phraseScanS term (text.drop (i+1)) (pyIsSpace text[i]) 0 := rfl
      rw [hdrop, hstep, ← hdrop]
      have hcond : ((i == 0 || (text[i-1]?).all pyIsSpace) &&
          litMatch term (text.drop i) &&
          afterOk (List.drop term.length (text.drop i))) = specOccursAt term text i := by
        unfold specOccursAt
        have hafter : afterOk (List.drop term.length (text.drop i)) =
            ((text[i + term.length]?).all pyIsSpace) := by
          rw [afterOk_eq, List.getElem?_drop, List.getElem?_drop]
          have : i + (term.length + 0) = i + term.length := by omega
          rw [this]
        rw [hafter, Bool.and_comm ((i == 0 || (text[i-1]?).all pyIsSpace))
          (litMatch term (text.drop i))]
      rw [hcond, idxScan, if_pos hlt]
      have hflag1 : (((i+1 : Nat)) == 0 || (text[(i+1)-1]?).all pyIsSpace) =
          pyIsSpace text[i] := by
        simp [List.getElem?_eq_getElem hlt]
      by_cases hocc : specOccursAt term text i = true
      · rw [if_pos hocc, if_pos hocc]
        congr 1
        have hmax : Nat.max 1 term.length = term.length := Nat.max_eq_right hlen
        rw [hmax]
        by_cases hl1 : term.length = 1
        · rw [hl1, Nat.sub_self, ← hflag1]
          exact ih (i+1) (by omega)
        · have hj : 1 ≤ term.length - 1 := by omega
          rw [phraseScanS_skip_all term (text.drop (i+1)) (term.length - 1)
            (pyIsSpace text[i]) hj]
          rw [List.drop_drop, List.getElem?_drop]
          rw [show (i + 1) + (term.length - 1) = i + term.length from by omega]
          rw [show (i + 1) + (term.length - 1 - 1) = i + term.length - 1 from by omega]
          have hflag2 : ((i + term.length : Nat) == 0 ||
              (text[i + term.length - 1]?).all pyIsSpace) =
              ((text[i + term.length - 1]?).all pyIsSpace) := by
            have hz : ((i + term.length : Nat) == 0) = false := by
              have hnz : i + term.length ≠ 0 := by omega
              simpa using hnz
            rw [hz, Bool.false_or]
          rw [← hflag2]
          exact ih (i + term.length) (by omega)
      · rw [if_neg hocc, if_neg hocc]
        rw [← hflag1]
        exact ih (i+1) (by omega)

theorem greedyFrom_all_lt (len : Nat) :
    ∀ (ps : List Nat) (lo : Nat), (∀ j ∈ ps, j < lo) → greedyFrom len lo ps = 0 := by
  intro ps
  induction ps with
  | nil => intro lo _; rfl
  | cons j rest ih =>
    intro lo h
    have hj : j < lo := h j (List.mem_cons_self j rest)
    rw [greedyFrom, if_neg (by omega)]
    exact ih lo (fun x hx => h x (List.mem_cons_of_mem j hx))

theorem greedyFrom_drop_pre (len : Nat) :
    ∀ (pre ps : List Nat) (lo : Nat), (∀ j ∈ pre, j < lo) →
      greedyFrom len lo (pre ++ ps) = greedyFrom len lo ps := by
  intro pre
  induction pre with
  | nil => intro ps lo _; rfl
  | cons j rest ih =>
    intro ps lo h
    have hj : j < lo := h j (List.mem_cons_self j rest)
    rw [List.cons_append, greedyFrom, if_neg (by omega)]
    exact ih ps lo (fun x hx => h x (List.mem_cons_of_mem j hx))

theorem greedyFrom_not_mem (len : Nat) :
    ∀ (ps : List Nat) (i : Nat), i ∉ ps →
      greedyFrom len i ps = greedyFrom len (i + 1) ps := by
  intro ps
  induction ps with
  | nil => intro i _; rfl
  | cons j rest ih =>
    intro i h
    have hji : j ≠ i := fun he => h (he ▸ List.mem_cons_self j rest)
    have hrest : i ∉ rest := fun hm => h (List.mem_cons_of_mem j hm)
    by_cases hij : i ≤ j
    · have hij' : i + 1 ≤ j := by omega
      rw [greedyFrom, if_pos hij, greedyFrom, if_pos hij']
    · rw [greedyFrom, if_neg hij, greedyFrom, if_neg (by omega)]
      exact ih i hrest

theorem greedyFrom_mem (len : Nat) (ps : List Nat) (i : Nat)
    (hs : ps.Pairwise (· < ·)) (hm : i ∈ ps) (hl : 1 ≤ len) :
    greedyFrom len i ps = 1 + greedyFrom len (i + len) ps := by
  rcases List.append_of_mem hm with ⟨pre, rest, rfl⟩
  have hpre : ∀ j ∈ pre, j < i := by
    rcases List.pairwise_append.mp hs with ⟨_, _, hcross⟩
    intro j hj
    exact hcross j hj i (List.mem_cons_self i rest)
  have hpre' : ∀ j ∈ pre, j < i + len := fun j hj => by
    have := hpre j hj
    omega
  rw [greedyFrom_drop_pre len pre _ i hpre,
      greedyFrom_drop_pre len pre _ (i + len) hpre']
  rw [greedyFrom, if_pos (Nat.le_refl i), greedyFrom, if_neg (by omega)]

theorem idxScan_eq_greedy (term text : List Char) (hl : 1 ≤ term.length) :
    ∀ (d i : Nat), text.length - i ≤ d →
      idxScan term text i =
        greedyFrom term.length i
          ((List.range text.length).filter (fun j => specOccursAt term text j)) := by
  have hsorted : ((List.range text.length).filter
      (fun j => specOccursAt term text j)).Pairwise (· < ·) :=
    List.Pairwise.filter _ (List.pairwise_lt_range text.length)
  have hbound : ∀ j ∈ (List.range text.length).filter
      (fun j => specOccursAt term text j), j < text.length := by
    intro j hj
    exact List.mem_range.mp (List.mem_filter.mp hj).1
  intro d
  induction d with
  | zero =>
    intro i hi
    rw [idxScan, if_neg (by omega)]
    exact (greedyFrom_all_lt term.length _ i
      (fun j hj => by have := hbound j hj; omega)).symm
  | succ d ih =>
    intro i hi
    by_cases hlt : i < text.length
    case neg =>
      rw [idxScan, if_neg (by omega)]
      exact (greedyFrom_all_lt term.length _ i
        (fun j hj => by have := hbound j hj; omega)).symm
    case pos =>
      rw [idxScan, if_pos hlt]
      by_cases hocc : specOccursAt term text i = true
      · rw [if_pos hocc]
        have hmem : i ∈ (List.range text.length).filter
            (fun j => specOccursAt term text j) :=
          List.mem_filter.mpr ⟨List.mem_range.mpr hlt, hocc⟩
        rw [greedyFrom_mem term.length _ i hsorted hmem hl]
        congr 1
        have hmax : Nat.max 1 term.length = term.length := Nat.max_eq_right hl
        rw [hmax]
        exact ih (i + term.length) (by omega)
      · rw [if_neg hocc]
        have hnmem : i ∉ (List.range text.length).filter
            (fun j => specOccursAt term text j) :=
          fun hmem => by
            rw [(List.mem_filter.mp hmem).2] at hocc
            exact hocc rfl
        rw [greedyFrom_not_mem term.length _ i hnmem]
        exact ih (i + 1) (by omega)

theorem phraseCount_eq_spec (term text : List Char) (hne : term ≠ []) :
    phraseCount term text = specPhraseCount term text := by
  have hl : 1 ≤ term.length := by
    cases term with
    | nil => exact absurd rfl hne
    | cons a as => simp
  have h0 := phraseScanS_eq_idxScan term text hne text.length 0 (by omega)
  rw [List.drop_zero] at h0
  have hflag : ((0 : Nat) == 0 || (text[(0 : Nat)-1]?).all pyIsSpace) = true := by
    simp
  rw [hflag] at h0
  unfold phraseCount specPhraseCount
  rw [h0]
  exact idxScan_eq_greedy term text hl text.length 0 (by omega)

/-- C4 counterexample: the term `"c\td"` has a trimmed-lowered form containing
whitespace (a tab), but its reported count is the compound-vocabulary count 0,
not the standalone-occurrence count 1 of the literal sequence in the text
`"c\td"`: only a space (U+0020) triggers phrase matching. -/
theorem phrase_whitespace_counterexample :
    pyIsSpace (Char.ofNat 9) = true ∧
    (Char.ofNat 9) ∈ normTerm (strL "c\td") ∧
    build_result (strL "c\td") [strL "c\td"] =
      Result.counts [(strL "c\td", 0)] ∧
    specPhraseCount (normTerm (strL "c\td")) (pyLower (strL "c\td")) = 1 := by
  decide

/-- C4 (amended): for every term whose trimmed-lowered form contains a space
character U+0020 — the code's actual phrase-term test, rather than "any
whitespace character" — the reported count is the number of non-overlapping
occurrences of the exact literal lower-cased sequence in the lower-cased
text, each preceded by start-of-text or whitespace and followed by
end-of-text or whitespace; in particular
`build_result("new york city new york", ["new york"]) = {"new york": 2}`. -/
theorem phrase_term_count :
    (∀ (text original : List Char), ' ' ∈ normTerm original →
      count_terms_in_text text [original] =
        [(original, specPhraseCount (normTerm original) (pyLower text))]) ∧
    build_result (strL "new york city new york") [strL "new york"] =
      Result.counts [(strL "new york", 2)] := by
  refine ⟨?_, by decide⟩
  intro text original hsp
  have hnn : normTerm original ≠ [] := by
    intro h
    rw [h] at hsp
    cases hsp
  have hne : ¬(normTerm original).isEmpty = true := by
    cases h : normTerm original with
    | nil => exact absurd h hnn
    | cons a as => simp
  rw [ctit_singleton text original hne, if_pos hsp,
      phraseCount_eq_spec _ _ hnn]

/-- C4 witness: scenario D instantiated through the amended theorem. -/
theorem phrase_term_count_witness :
    count_terms_in_text (strL "new york city new york") [strL "new york"] =
      [(strL "new york",
        specPhraseCount (normTerm (strL "new york"))
          (pyLower (strL "new york city new york")))] :=
  phrase_term_count.1 (strL "new york city new york") (strL "new york")
    (by decide)

/-- C6 counterexample: the term `"a\tb"` contains a whitespace character (tab)
in its trimmed-lowered form, but is NOT matched by the standalone-phrase rule:
it is looked up in the compound-token vocabulary (count 0), while the
standalone-phrase rule would count 1 occurrence in the text `"a\tb"`. -/
theorem term_classification_counterexample :
    pyIsSpace (Char.ofNat 9) = true ∧
    (Char.ofNat 9) ∈ normTerm (strL "a\tb") ∧
    build_result (strL "a\tb") [strL "a\tb"] =
      Result.counts [(strL "a\tb", 0)] ∧
    (compoundTokens (pyLower (strL "a\tb"))).count (normTerm (strL "a\tb")) = 0 ∧
    specPhraseCount (normTerm (strL "a\tb")) (pyLower (strL "a\tb")) = 1 := by
  decide

/-- C6 (amended): a supplied term is classified as a phrase term, and matched
with the standalone-phrase rule, exactly when its trimmed-lowered form
contains a space character U+0020 (`" " in term`) — not any other whitespace
character; otherwise it is a word term, looked up in the compound-token
vocabulary. -/
theorem term_classification (text original : List Char)
    (hne : ¬(normTerm original).isEmpty = true) :
    count_terms_in_text text [original] =
      [(original,
        if ' ' ∈ normTerm original
        then specPhraseCount (normTerm original) (pyLower text)
        else (compoundTokens (pyLower text)).count (normTerm original))] := by
  rw [ctit_singleton text original hne]
  by_cases hsp : ' ' ∈ normTerm original
  · have hnn : normTerm original ≠ [] := by
      intro h
      rw [h] at hsp
      cases hsp
    rw [if_pos hsp, if_pos hsp, phraseCount_eq_spec _ _ hnn]
  · rw [if_neg hsp, if_neg hsp]

/-- C6 witness: classification at a concrete phrase term. -/
theorem term_classification_witness :
    count_terms_in_text (strL "a b a b") [strL "a b"] =
      [(strL "a b",
        if ' ' ∈ normTerm (strL "a b")
        then specPhraseCount (normTerm (strL "a b")) (pyLower (strL "a b a b"))
        else (compoundTokens (pyLower (strL "a b a b"))).count
          (normTerm (strL "a b")))] :=
  term_classification (strL "a b a b") (strL "a b") (by decide)

theorem isEmpty_false_of_ne_nil {α : Type} {l : List α} (h : l ≠ []) :
    l.isEmpty = false := by
  cases l with
  | nil => exact absurd rfl h
  | cons a as => rfl

theorem isWordChar_pyLowerChar (c : Char) (h : isWordChar c = true) :
    isWordChar (pyLowerChar c) = true := by
  unfold pyLowerChar
  by_cases hr : 65 ≤ c.toNat ∧ c.toNat ≤ 90
  · rw [dif_pos hr]
    have ht : (Char.ofNatAux (c.toNat + 32)
        (Or.inl (by omega))).toNat = c.toNat + 32 := rfl
    unfold isWordChar
    simp only [Bool.or_eq_true, Bool.and_eq_true, decide_eq_true_eq, ht]
    omega
  · rw [dif_neg hr]
    exact h

theorem wordChar_not_space (c : Char) (h : isWordChar c = true) :
    pyIsSpace c = false := by
  rw [Bool.eq_false_iff]
  intro hsp
  unfold isWordChar at h
  unfold pyIsSpace at hsp
  simp only [Bool.or_eq_true, Bool.and_eq_true, decide_eq_true_eq,
    beq_iff_eq] at h hsp
  omega

theorem pyStrip_ne_of_mem {s : List Char} {c : Char} (hc : c ∈ s)
    (hns : pyIsSpace c = false) : (pyStrip s).isEmpty = false := by
  rw [Bool.eq_false_iff]
  intro he
  have hnil : pyStrip s = [] := by
    cases hps : pyStrip s with
    | nil => rfl
    | cons a as =>
      rw [hps] at he
      simp at he
  unfold pyStrip at hnil
  rw [List.reverse_eq_nil_iff, List.dropWhile_eq_nil_iff] at hnil
  have hall : ∀ x ∈ s, pyIsSpace x = true := by
    intro x hx
    have hx' : x ∈ s.takeWhile pyIsSpace ++ s.dropWhile pyIsSpace := by
      rw [List.takeWhile_append_dropWhile]
      exact hx
    rcases List.mem_append.mp hx' with h1 | h2
    · exact List.mem_takeWhile_imp h1
    · exact hnil x (List.mem_reverse.mpr h2)
  rw [hall c hc] at hns
  cases hns

theorem plainTokensAux_ne_nil :
    ∀ (s acc : List Char), ((∃ c ∈ s, isWordChar c = true) ∨ acc ≠ []) →
      plainTokensAux s acc ≠ [] := by
  intro s
  induction s with
  | nil =>
    intro acc h
    rcases h with ⟨c, hc, _⟩ | h
    · cases hc
    · simp only [plainTokensAux]
      rw [isEmpty_false_of_ne_nil h]
      simp
  | cons c cs ih =>
    intro acc h
    simp only [plainTokensAux]
    by_cases hw : isWordChar c = true
    · rw [if_pos hw]
      exact ih (c :: acc) (Or.inr (by simp))
    · rw [if_neg hw]
      rcases h with ⟨x, hx, hxw⟩ | hacc
      · rcases List.mem_cons.mp hx with rfl | hx2
        · exact absurd hxw hw
        · by_cases hai : acc.isEmpty = true
          · rw [if_pos hai]
            exact ih [] (Or.inl ⟨x, hx2, hxw⟩)
          · rw [if_neg hai]
            simp
      · rw [if_neg (by rw [isEmpty_false_of_ne_nil hacc]; simp)]
        simp

theorem plainTokens_lower_ne (text : List Char)
    (h : ∃ c ∈ text, isWordChar c = true) :
    (plainTokens (pyLower text)).isEmpty = false := by
  obtain ⟨c, hc, hw⟩ := h
  have hmem : pyLowerChar c ∈ pyLower text := List.mem_map_of_mem pyLowerChar hc
  exact isEmpty_false_of_ne_nil
    (plainTokensAux_ne_nil (pyLower text) []
      (Or.inl ⟨pyLowerChar c, hmem, isWordChar_pyLowerChar c hw⟩))

theorem count_top_words_pair_mem (text : List Char) (k : List Char) (v : Nat)
    (hne : (plainTokens (pyLower text)).isEmpty = false) :
    (k, v) ∈ count_top_words text ↔
      (k ∈ plainTokens (pyLower text) ∧
       (plainTokens (pyLower text)).count k =
         listMax (((distinctKeys (plainTokens (pyLower text))).map
           (fun w => (w, (plainTokens (pyLower text)).count w))).map Prod.snd) ∧
       v = listMax (((distinctKeys (plainTokens (pyLower text))).map
           (fun w => (w, (plainTokens (pyLower text)).count w))).map Prod.snd)) := by
  rw [count_top_words]
  simp only [hne, Bool.false_eq_true, if_false]
  rw [List.mem_filter]
  constructor
  · rintro ⟨hmem, hveq⟩
    rcases List.mem_map.mp hmem with ⟨w, hw, heq⟩
    have hk : w = k := congrArg Prod.fst heq
    have hv : (plainTokens (pyLower text)).count w = v := congrArg Prod.snd heq
    subst hk
    simp only [beq_iff_eq] at hveq
    refine ⟨(distinctKeys_mem _ w).mp hw, ?_, ?_⟩
    · rw [hv]
      exact hveq
    · exact hveq
  · rintro ⟨hmem, hcnt, hveq⟩
    constructor
    · refine List.mem_map.mpr ⟨k, (distinctKeys_mem _ k).mpr hmem, ?_⟩
      rw [← hcnt] at hveq
      rw [hveq]
    · simp only [beq_iff_eq]
      exact hveq

/-- C5: in the no-terms mode, with text containing at least one alphabet
character, `build_result` returns exactly the plain-grammar tokens of the
lower-cased text whose occurrence count equals the maximum count over all
tokens, each mapped to that maximum; in particular
`build_result("cat cat dog", []) = {"cat": 2}`. -/
theorem top_words_mode :
    (∀ (text : List Char), (∃ c ∈ text, isWordChar c = true) →
      ∃ m, build_result text [] = Result.counts m ∧
        ∀ k v, ((k, v) ∈ m ↔
          (k ∈ plainTokens (pyLower text) ∧
           (plainTokens (pyLower text)).count k =
             listMax ((plainTokens (pyLower text)).map
               (fun w => (plainTokens (pyLower text)).count w)) ∧
           v = listMax ((plainTokens (pyLower text)).map
               (fun w => (plainTokens (pyLower text)).count w))))) ∧
    build_result (strL "cat cat dog") [] = Result.counts [(strL "cat", 2)] := by
  refine ⟨?_, by decide⟩
  intro text hex
  obtain ⟨c0, hc0, hw0⟩ := hex
  have htokne : (plainTokens (pyLower text)).isEmpty = false :=
    plainTokens_lower_ne text ⟨c0, hc0, hw0⟩
  have htoknil : plainTokens (pyLower text) ≠ [] := by
    intro he
    rw [he] at htokne
    cases htokne
  have hMeq : listMax (((distinctKeys (plainTokens (pyLower text))).map
      (fun w => (w, (plainTokens (pyLower text)).count w))).map Prod.snd) =
      listMax ((plainTokens (pyLower text)).map
        (fun w => (plainTokens (pyLower text)).count w)) := by
    apply listMax_congr_mem
    intro x
    constructor
    · intro hx
      rcases List.mem_map.mp hx with ⟨p, hp, hpx⟩
      rcases List.mem_map.mp hp with ⟨w, hw, hweq⟩
      refine List.mem_map.mpr ⟨w, (distinctKeys_mem _ w).mp hw, ?_⟩
      rw [← hpx, ← hweq]
    · intro hx
      rcases List.mem_map.mp hx with ⟨w, hw, hweq⟩
      refine List.mem_map.mpr ⟨(w, (plainTokens (pyLower text)).count w),
        List.mem_map.mpr ⟨w, (distinctKeys_mem _ w).mpr hw, rfl⟩, hweq⟩
  have h1 : (pyStrip text).isEmpty = false :=
    pyStrip_ne_of_mem hc0 (wordChar_not_space c0 hw0)
  have htopne : count_top_words text ≠ [] := by
    rw [count_top_words]
    simp only [htokne, Bool.false_eq_true, if_false]
    have hmapne : ((distinctKeys (plainTokens (pyLower text))).map
        (fun w => (w, (plainTokens (pyLower text)).count w))).map Prod.snd ≠ [] := by
      cases hd : distinctKeys (plainTokens (pyLower text)) with
      | nil =>
        rcases List.exists_mem_of_ne_nil _ htoknil with ⟨t0, ht0⟩
        have := (distinctKeys_mem (plainTokens (pyLower text)) t0).mpr ht0
        rw [hd] at this
        cases this
      | cons a as => simp
    have hMmem := listMax_mem _ hmapne
    rcases List.mem_map.mp hMmem with ⟨p, hp, hpv⟩
    intro hfe
    have hpf : p ∈ List.filter
        (fun p => p.2 == listMax (((distinctKeys (plainTokens (pyLower text))).map
          (fun w => (w, (plainTokens (pyLower text)).count w))).map Prod.snd))
        ((distinctKeys (plainTokens (pyLower text))).map
          (fun w => (w, (plainTokens (pyLower text)).count w))) :=
      List.mem_filter.mpr ⟨hp, by simp [hpv]⟩
    rw [hfe] at hpf
    cases hpf
  have h4 : (count_top_words text).isEmpty = false :=
    isEmpty_false_of_ne_nil htopne
  have hb : build_result text [] = Result.counts
      ((sortKeys ((count_top_words text).map Prod.fst)).map
        (fun k => (k, dictGet (count_top_words text) k))) := by
    simp [build_result, h1, h4, hasRealTerm]
  refine ⟨_, hb, ?_⟩
  intro k v
  constructor
  · intro hkv
    rcases List.mem_map.mp hkv with ⟨k', hk', heq⟩
    have hkk : k' = k := congrArg Prod.fst heq
    subst hkk
    have hv : dictGet (count_top_words text) k' = v := congrArg Prod.snd heq
    have hkeys : k' ∈ (count_top_words text).map Prod.fst :=
      (sortKeys_perm _).mem_iff.mp hk'
    rcases List.mem_map.mp hkeys with ⟨q, hq, hqk⟩
    have hqmem := (count_top_words_pair_mem text q.1 q.2 htokne).mp (by
      rw [show (q.1, q.2) = q from rfl]
      exact hq)
    have hget : dictGet (count_top_words text) q.1 = q.2 :=
      dictGet_eq _ (count_top_words_nodup text) (by
        rw [show (q.1, q.2) = q from rfl]
        exact hq)
    rw [← hv, ← hqk, hget]
    rw [← hMeq]
    exact ⟨hqmem.1, hqmem.2.1, hqmem.2.2⟩
  · rintro ⟨hmem, hcnt, hveq⟩
    rw [← hMeq] at hcnt hveq
    have hpair : (k, v) ∈ count_top_words text :=
      (count_top_words_pair_mem text k v htokne).mpr ⟨hmem, hcnt, hveq⟩
    have hkeys : k ∈ (count_top_words text).map Prod.fst :=
      List.mem_map.mpr ⟨(k, v), hpair, rfl⟩
    refine List.mem_map.mpr ⟨k, (sortKeys_perm _).symm.mem_iff.mp hkeys, ?_⟩
    rw [dictGet_eq _ (count_top_words_nodup text) hpair]

/-- C5 witness: scenario B's text contains an alphabet character, so the
theorem applies and the result is a count mapping, not the error. -/
theorem top_words_mode_witness :
    build_result (strL "cat cat dog") [] ≠ Result.error errMsg := by
  obtain ⟨m, hm, _⟩ :=
    top_words_mode.1 (strL "cat cat dog") ⟨'c', by decide, by decide⟩
  intro hc
  rw [hm] at hc
  cases hc

end WordCounter
